import Mathlib

/-!
Shallow embedding of the verification scoreboard in `src/design/tb/tb.cc`
(repository `stephenry/v`): the protocol value types, the per-context
update/query semantics of `ValidationModel`, the fixed-latency `DelayPipe`,
and the model-level handlers, together with theorems settling the spec's
testable properties against this embedding.

Machine integer types (`key_t`, `volume_t`, `id_t`, `level_t`,
`listsize_t`) are modelled as `Nat`; none of the verified properties
depend on a wrap-around, only on order and equality of the values.
-/

namespace Verif

/-- `ValidationModel::Entry` (tb.cc:174-181): one list element,
a key/volume pair.  `Entry::operator<` compares keys only. -/
structure Entry where
  key : Nat
  volume : Nat
deriving DecidableEq

instance : Inhabited Entry := ⟨⟨0, 0⟩⟩

/-- The strict order of `Entry::operator<` (tb.cc:175-177). -/
def Entry.lt (a b : Entry) : Prop := a.key < b.key

/-- The non-strict companion of `Entry::operator<`: `entryLe a b` iff
`¬ (b < a)` in the C++ comparator, i.e. `a.key ≤ b.key`.  A sequence is
sorted for `std::stable_sort` with `operator<` exactly when it is
`Sorted entryLe`. -/
def entryLe (a b : Entry) : Prop := a.key ≤ b.key

instance : DecidableRel entryLe := fun a b => Nat.decLe a.key b.key

/-- The update opcodes (`Cmd`, driven as `Clr=0, Add=1, Del=2, Rep=3`,
tb.cc:96-109). -/
inductive Cmd where
  | Clr
  | Add
  | Del
  | Rep
deriving DecidableEq

/-- `UpdateCommand` (tb.cc:47-51): validity-tagged update transaction. -/
structure UpdateCommand where
  vld : Bool
  id : Nat
  cmd : Cmd
  key : Nat
  volume : Nat
deriving DecidableEq

/-- `QueryCommand` (tb.cc:53-57): validity-tagged query transaction. -/
structure QueryCommand where
  vld : Bool
  id : Nat
  level : Nat
deriving DecidableEq

/-- `QueryResponse` (tb.cc:59-69).  The default-constructed value has
`vld = false`; the four-argument constructor sets `vld = true`. -/
structure QueryResponse where
  vld : Bool
  key : Nat
  volume : Nat
  error : Bool
  listsize : Nat
deriving DecidableEq

/-- Default-constructed `QueryResponse{}`: invalid.  (The C++ leaves the
remaining fields uninitialized; they are never read when `vld` is false,
and are fixed at zero here.) -/
def QueryResponse.invalid : QueryResponse := ⟨false, 0, 0, false, 0⟩

instance : Inhabited QueryResponse := ⟨QueryResponse.invalid⟩

/-- `NotifyResponse` (tb.cc:71-79). -/
structure NotifyResponse where
  vld : Bool
  id : Nat
  key : Nat
  volume : Nat
deriving DecidableEq

/-- Default-constructed `NotifyResponse{}`: invalid.  (Uninitialized
fields fixed at zero, as for `QueryResponse`.) -/
def NotifyResponse.invalid : NotifyResponse := ⟨false, 0, 0, 0⟩

instance : Inhabited NotifyResponse := ⟨NotifyResponse.invalid⟩

/-- One step of `ValidationModel::handle_uc` (tb.cc:216-284) acting on the
single context addressed by a valid command (the `ASSERT_LT` range check
and the selection `tbl_[uc_.id()]` live at the model level below).

Returns the mutated context together with what the handler pushes onto
`notify_pipe_`: `some nr` for the final `notify_pipe_.push_back(nr)`,
and `none` for the early `return` taken when a `Del`/`Rep` finds no
matching key (tb.cc:263), which pushes nothing that cycle.

`std::stable_sort` with `Entry::operator<` (sort ascending by key, stable)
is embedded as `List.insertionSort entryLe`, which is a stable sort for
the same order and hence computes the same permutation. -/
def handle_uc_ctxt (entriesN : Nat) (uc : UpdateCommand) (ctxt : List Entry) :
    List Entry × Option NotifyResponse :=
  match uc.cmd with
  | Cmd.Clr =>
      match ctxt with
      | [] => ([], some NotifyResponse.invalid)
      | e :: _ => ([], some ⟨true, uc.id, e.key, e.volume⟩)
  | Cmd.Add =>
      let nr : NotifyResponse :=
        if ctxt.isEmpty then ⟨true, uc.id, uc.key, uc.volume⟩
        else NotifyResponse.invalid
      let s := List.insertionSort entryLe (ctxt ++ [⟨uc.key, uc.volume⟩])
      (if entriesN < s.length then s.dropLast else s, some nr)
  | Cmd.Rep =>
      let i := ctxt.findIdx (fun e => e.key == uc.key)
      if i < ctxt.length then
        let nr : NotifyResponse :=
          if i = 0 then
            ⟨true, uc.id, (ctxt.getD i default).key, (ctxt.getD i default).volume⟩
          else NotifyResponse.invalid
        (ctxt.set i ⟨(ctxt.getD i default).key, uc.volume⟩, some nr)
      else (ctxt, none)
  | Cmd.Del =>
      let i := ctxt.findIdx (fun e => e.key == uc.key)
      if i < ctxt.length then
        let nr : NotifyResponse :=
          if i = 0 then
            ⟨true, uc.id, (ctxt.getD i default).key, (ctxt.getD i default).volume⟩
          else NotifyResponse.invalid
        (ctxt.eraseIdx i, some nr)
      else (ctxt, none)

/-- `ValidationModel::handle_qc` (tb.cc:286-305) acting on the context
addressed by a valid command: `error = (level >= ctxt.size())`; on error
the remaining fields are zeroed, otherwise the entry at rank `level` and
the context size are returned. -/
def handle_qc_ctxt (qc : QueryCommand) (ctxt : List Entry) : QueryResponse :=
  if ctxt.length ≤ qc.level then ⟨true, 0, 0, true, 0⟩
  else
    let e := ctxt.getD qc.level default
    ⟨true, e.key, e.volume, false, ctxt.length⟩

/-- `DelayPipe<T, N>` (tb.cc:142-168): a circular buffer of `N + 1` slots
with a write cursor and a read cursor.  The backing `std::array<T, N + 1>`
is modelled as a `List T` of length `N + 1`. -/
structure DelayPipe (T : Type) (N : Nat) where
  wr : Nat
  rd : Nat
  p : List T
deriving DecidableEq

namespace DelayPipe

variable {T : Type} {N : Nat} [Inhabited T]

/-- `DelayPipe::clear` (tb.cc:158-163): default-fill every slot, write
cursor at `N`, read cursor at `0`.  Also the constructor's state. -/
def clear : DelayPipe T N := ⟨N, 0, List.replicate (N + 1) default⟩

/-- `DelayPipe::push_back` (tb.cc:149): store at the write cursor;
cursors do not move. -/
def push_back (d : DelayPipe T N) (t : T) : DelayPipe T N :=
  { d with p := d.p.set d.wr t }

/-- `DelayPipe::head` (tb.cc:151): the value at the read cursor. -/
def head (d : DelayPipe T N) : T := d.p.getD d.rd default

/-- `DelayPipe::step` (tb.cc:153-156): advance both cursors modulo
`N + 1`. -/
def step (d : DelayPipe T N) : DelayPipe T N :=
  { d with wr := (d.wr + 1) % (N + 1), rd := (d.rd + 1) % (N + 1) }

end DelayPipe

/-- The state after `c` cycles of the `DelayPipe` usage pattern of
`ValidationModel` (tb.cc:200-208): starting from the constructor state
(`clear`), each cycle first steps the pipe (`ValidationModel::step`,
tb.cc:201-202) and then pushes exactly one value (`handle_uc`/`handle_qc`
push unconditionally on the non-early-return paths).  `vs c` is the value
pushed during cycle `c`. -/
def pipeRun {T : Type} [Inhabited T] (N : Nat) (vs : Nat → T) : Nat → DelayPipe T N
  | 0 => DelayPipe.clear
  | c + 1 => ((pipeRun N vs c).step).push_back (vs c)

/-- The value `head()` returns when read during cycle `c`, after that
cycle's step and push (`handle_nr` reads `notify_pipe_.head()` at
tb.cc:311, after the push in `handle_uc`). -/
def pipeObs {T : Type} [Inhabited T] (N : Nat) (vs : Nat → T) (c : Nat) : T :=
  (pipeRun N vs (c + 1)).head

/-- `QUERY_PIPE_DELAY` (tb.cc:171). -/
def QUERY_PIPE_DELAY : Nat := 1

/-- `UPDATE_PIPE_DELAY` (tb.cc:172). -/
def UPDATE_PIPE_DELAY : Nat := 4

/-- The state of `ValidationModel` (tb.cc:170-334) that the update/query
handlers and `reset` touch: the per-context table `tbl_` and the two
delay pipelines.  (`id_pipe_` is declared but never used; the latched
inputs `uc_`/`qc_`/`qr_`/`nr_` are passed as arguments here.) -/
structure VModel where
  tbl : List (List Entry)
  notifyPipe : DelayPipe NotifyResponse UPDATE_PIPE_DELAY
  queriesPipe : DelayPipe QueryResponse QUERY_PIPE_DELAY
deriving DecidableEq

/-- The state established by the `ValidationModel` constructor
(tb.cc:189-192): `reset()` leaves every context empty, and each
`DelayPipe` member's own constructor calls `clear()` (tb.cc:145-147). -/
def VModel.init (contextN : Nat) : VModel :=
  ⟨List.replicate contextN [], DelayPipe.clear, DelayPipe.clear⟩

/-- `ValidationModel::reset` (tb.cc:194-198): clear every context.  The
delay pipelines are not touched by this function. -/
def VModel.reset (m : VModel) : VModel :=
  { m with tbl := m.tbl.map (fun _ => []) }

/-- `ValidationModel::handle_uc` (tb.cc:216-284) at model level.
`none` models the fatal `ASSERT_LT(uc_.id(), cfg::CONTEXT_N)` failure
(tb.cc:225): a fatal precondition violation, aborting before any context
is mutated or any prediction is pushed.  An invalid command pushes an
empty notify prediction (tb.cc:217-222); a `Del`/`Rep` miss pushes
nothing (early return, tb.cc:263). -/
def VModel.handle_uc (contextN entriesN : Nat) (uc : UpdateCommand)
    (m : VModel) : Option VModel :=
  if uc.vld = false then
    some { m with notifyPipe := m.notifyPipe.push_back NotifyResponse.invalid }
  else if contextN ≤ uc.id then none
  else
    let r := handle_uc_ctxt entriesN uc (m.tbl.getD uc.id [])
    some { m with
      tbl := m.tbl.set uc.id r.1
      notifyPipe := match r.2 with
        | some nr => m.notifyPipe.push_back nr
        | none => m.notifyPipe }

/-- `ValidationModel::handle_qc` (tb.cc:286-305) at model level.
`none` models the fatal `ASSERT_LT(qc_.id(), cfg::CONTEXT_N)` failure
(tb.cc:290).  An invalid command pushes the default-constructed (invalid)
response; a valid in-range command pushes the computed response. -/
def VModel.handle_qc (contextN : Nat) (qc : QueryCommand)
    (m : VModel) : Option VModel :=
  if qc.vld = false then
    some { m with queriesPipe := m.queriesPipe.push_back QueryResponse.invalid }
  else if contextN ≤ qc.id then none
  else
    some { m with
      queriesPipe :=
        m.queriesPipe.push_back (handle_qc_ctxt qc (m.tbl.getD qc.id [])) }

/-- The effect of `std::stable_sort` with `Entry::operator<` on an
already-sorted context with one entry appended (the `Cmd::Add` path):
the new entry moves to just after the existing entries whose key is at
most its own.  Proved below to coincide with the `insertionSort` form
used in `handle_uc_ctxt` whenever the context is sorted. -/
def insertEntry (e : Entry) : List Entry → List Entry
  | [] => [e]
  | x :: xs => if x.key ≤ e.key then x :: insertEntry e xs else e :: x :: xs

/-- Fold a sequence of update commands over a single context, tracking
only the context contents (the per-context projection of a run of
`handle_uc`). -/
def applyCmds (entriesN : Nat) (ucs : List UpdateCommand) : List Entry :=
  ucs.foldl (fun c uc => (handle_uc_ctxt entriesN uc c).1) []

/-- The `UpdateCommand` adding entry `e` to context 0. -/
def addCmd (e : Entry) : UpdateCommand := ⟨true, 0, Cmd.Add, e.key, e.volume⟩

/-- Fold a sequence of `Add` commands (one per entry, in order) over a
single context starting from `start`. -/
def applyAddsFrom (entriesN : Nat) (start : List Entry) (es : List Entry) :
    List Entry :=
  es.foldl (fun c e => (handle_uc_ctxt entriesN (addCmd e) c).1) start

/-- Fold a sequence of `Add` commands over an initially empty context. -/
def applyAdds (entriesN : Nat) (es : List Entry) : List Entry :=
  applyAddsFrom entriesN [] es

/-! ### List helper lemmas -/

theorem getD_set_eq {α : Type} (l : List α) (i : Nat) (v d : α)
    (h : i < l.length) : (l.set i v).getD i d = v := by
  induction l generalizing i with
  | nil => simp at h
  | cons a t ih =>
    cases i with
    | zero => simp [List.getD]
    | succ k =>
      simp only [List.set, List.getD, List.get?] at *
      exact ih k (by simpa using h)

theorem getD_set_ne {α : Type} (l : List α) (i j : Nat) (v d : α)
    (h : i ≠ j) : (l.set i v).getD j d = l.getD j d := by
  induction l generalizing i j with
  | nil => simp [List.set]
  | cons a t ih =>
    cases i with
    | zero =>
      cases j with
      | zero => exact absurd rfl h
      | succ k => simp [List.getD]
    | succ n =>
      cases j with
      | zero => simp [List.getD]
      | succ k =>
        simp only [List.set, List.getD, List.get?]
        exact ih n k (fun hc => h (by simpa using hc))

theorem getD_replicate_default {α : Type} (n i : Nat) (d : α) :
    (List.replicate n d).getD i d = d := by
  induction n generalizing i with
  | zero => simp [List.getD]
  | succ m ih =>
    cases i with
    | zero => simp [List.replicate, List.getD]
    | succ k => simp [List.replicate, List.getD, List.get?, ih k]

theorem findIdx_eq_length_iff {α : Type} (p : α → Bool) (l : List α) :
    l.findIdx p = l.length ↔ ∀ x ∈ l, p x = false := by
  induction l with
  | nil => simp
  | cons a t ih =>
    by_cases h : p a
    · simp [List.findIdx_cons, h]
    · simp only [List.findIdx_cons, Bool.eq_false_iff.mpr h, cond_false,
        List.length_cons, List.mem_cons]
      constructor
      · intro hx x hm
        rcases hm with rfl | hm
        · exact Bool.eq_false_iff.mpr h
        · exact (ih.mp (by omega)) x hm
      · intro hx
        have := ih.mpr (fun x hm => hx x (Or.inr hm))
        omega

theorem findIdx_getD {α : Type} (p : α → Bool) (l : List α) (d : α)
    (h : l.findIdx p < l.length) : p (l.getD (l.findIdx p) d) = true := by
  induction l with
  | nil => simp at h
  | cons a t ih =>
    by_cases hp : p a
    · simp [List.findIdx_cons, hp, List.getD]
    · simp only [List.findIdx_cons, Bool.eq_false_iff.mpr hp, cond_false] at h ⊢
      simp only [List.getD, List.get?]
      exact ih (by simpa using h)

theorem eraseIdx_eq_take_drop {α : Type} (l : List α) (i : Nat) :
    l.eraseIdx i = l.take i ++ l.drop (i + 1) := by
  induction l generalizing i with
  | nil => simp [List.eraseIdx]
  | cons a t ih =>
    cases i with
    | zero => simp [List.eraseIdx]
    | succ k => simp [List.eraseIdx, ih k]

/-! ### `insertEntry` theory: the effect of the stable sort on a sorted
context with one appended element -/

theorem mem_insertEntry {x e : Entry} {l : List Entry}
    (h : x ∈ insertEntry e l) : x = e ∨ x ∈ l := by
  induction l with
  | nil => simpa [insertEntry] using h
  | cons a t ih =>
    by_cases hle : a.key ≤ e.key
    · simp only [insertEntry, if_pos hle, List.mem_cons] at h
      rcases h with rfl | h
      · exact Or.inr (List.mem_cons_self _ _)
      · rcases ih h with h' | h'
        · exact Or.inl h'
        · exact Or.inr (List.mem_cons_of_mem _ h')
    · simp only [insertEntry, if_neg hle, List.mem_cons] at h
      rcases h with rfl | h
      · exact Or.inl rfl
      · exact Or.inr (by simpa using h)

theorem orderedInsert_eq_cons (a : Entry) (l : List Entry)
    (h : ∀ x ∈ l, entryLe a x) :
    List.orderedInsert entryLe a l = a :: l := by
  cases l with
  | nil => rfl
  | cons b t =>
    exact List.orderedInsert_of_le entryLe t (h b (List.mem_cons_self _ _))

theorem insertEntry_of_forall_gt (e : Entry) (l : List Entry)
    (h : ∀ x ∈ l, ¬ x.key ≤ e.key) : insertEntry e l = e :: l := by
  cases l with
  | nil => rfl
  | cons a t =>
    simp only [insertEntry, if_neg (h a (List.mem_cons_self _ _))]

/-- On a context that is already sorted, the `push_back` + `stable_sort`
pair of the `Cmd::Add` path computes `insertEntry`: the new entry lands
immediately after the existing entries with key at most its own (and in
particular after any existing equal-key entries — stability). -/
theorem insertionSort_concat_sorted (e : Entry) (l : List Entry)
    (h : List.Sorted entryLe l) :
    List.insertionSort entryLe (l ++ [e]) = insertEntry e l := by
  induction l with
  | nil => simp [List.insertionSort, List.orderedInsert, insertEntry]
  | cons a t ih =>
    have hrel : ∀ x ∈ t, entryLe a x := (List.sorted_cons.mp h).1
    have hts : List.Sorted entryLe t := (List.sorted_cons.mp h).2
    have step : List.insertionSort entryLe ((a :: t) ++ [e]) =
        List.orderedInsert entryLe a (insertEntry e t) := by
      simp only [List.cons_append, List.insertionSort, List.append_eq, ih hts]
    by_cases hae : a.key ≤ e.key
    · have hall : ∀ x ∈ insertEntry e t, entryLe a x := by
        intro x hx
        rcases mem_insertEntry hx with rfl | hx
        · exact hae
        · exact hrel x hx
      rw [step, orderedInsert_eq_cons a _ hall]
      simp only [insertEntry, if_pos hae]
    · have hgt : ∀ x ∈ t, ¬ x.key ≤ e.key := by
        intro x hx hc
        exact hae (le_trans (hrel x hx) hc)
      rw [step, insertEntry_of_forall_gt e t hgt]
      have h1 : List.orderedInsert entryLe a (e :: t) =
          e :: List.orderedInsert entryLe a t := by
        simp only [List.orderedInsert, if_neg (show ¬ entryLe a e from hae)]
      rw [h1, orderedInsert_eq_cons a t hrel]
      simp only [insertEntry, if_neg hae]

theorem sorted_insertEntry (e : Entry) (l : List Entry)
    (h : List.Sorted entryLe l) :
    List.Sorted entryLe (insertEntry e l) := by
  induction l with
  | nil => simp [insertEntry, List.Sorted]
  | cons a t ih =>
    have hrel : ∀ x ∈ t, entryLe a x := (List.sorted_cons.mp h).1
    have hts : List.Sorted entryLe t := (List.sorted_cons.mp h).2
    by_cases hae : a.key ≤ e.key
    · simp only [insertEntry, if_pos hae]
      refine List.sorted_cons.mpr ⟨?_, ih hts⟩
      intro x hx
      rcases mem_insertEntry hx with rfl | hx
      · exact hae
      · exact hrel x hx
    · simp only [insertEntry, if_neg hae]
      refine List.sorted_cons.mpr ⟨?_, h⟩
      intro x hx
      rcases List.mem_cons.mp hx with rfl | hx
      · exact le_of_not_le hae
      · exact le_trans (le_of_not_le hae) (hrel x hx)

/-- Stability at the level of equal-key runs: on a sorted context,
inserting `e` appends it to the end of the equal-key run for its key and
leaves every other key's run untouched. -/
theorem filter_insertEntry (e : Entry) (l : List Entry) (k : Nat)
    (h : List.Sorted entryLe l) :
    (insertEntry e l).filter (fun x => x.key == k) =
      l.filter (fun x => x.key == k) ++ (if e.key == k then [e] else []) := by
  induction l with
  | nil => by_cases hek : e.key = k <;> simp [insertEntry, hek]
  | cons a t ih =>
    have hrel : ∀ x ∈ t, entryLe a x := (List.sorted_cons.mp h).1
    have hts : List.Sorted entryLe t := (List.sorted_cons.mp h).2
    by_cases hae : a.key ≤ e.key
    · simp only [insertEntry, if_pos hae, List.filter_cons]
      by_cases hak : a.key = k
      · simp [hak, ih hts]
      · simp [hak, ih hts]
    · simp only [insertEntry, if_neg hae]
      by_cases hek : e.key = k
      · have hnil : (a :: t).filter (fun x => x.key == k) = [] := by
          rw [List.filter_eq_nil_iff]
          intro x hx
          rcases List.mem_cons.mp hx with rfl | hx
          · simp only [beq_iff_eq]
            omega
          · have := hrel x hx
            simp only [beq_iff_eq, entryLe] at *
            omega
        simp [List.filter_cons, hek, hnil]
      · simp [List.filter_cons, hek]

/-! ### `DelayPipe` latency -/

theorem add_mod_cancel_left {t a b m : Nat}
    (h : (t + a) % m = (t + b) % m) : a % m = b % m :=
  Nat.ModEq.add_left_cancel (Nat.ModEq.refl t) h

/-- Cursor and slot contents of a `DelayPipe` run: after `t` cycles the
write cursor is at `(N + t) % (N + 1)`, the read cursor at `t % (N + 1)`,
and the slot that will be read `i` cycles from now holds the value pushed
`N + 1 - i` cycles ago (or the cleared default if that push has not
happened yet). -/
theorem pipeRun_inv {T : Type} [Inhabited T] (N : Nat) (vs : Nat → T)
    (t : Nat) :
    (pipeRun N vs t).wr = (N + t) % (N + 1) ∧
    (pipeRun N vs t).rd = t % (N + 1) ∧
    (pipeRun N vs t).p.length = N + 1 ∧
    (∀ i, i ≤ N →
      (pipeRun N vs t).p.getD ((t + i) % (N + 1)) default =
        if N + 1 ≤ t + i then vs (t + i - (N + 1)) else default) := by
  induction t with
  | zero =>
    refine ⟨?_, ?_, ?_, ?_⟩
    · simp [pipeRun, DelayPipe.clear, Nat.mod_eq_of_lt (Nat.lt_succ_self N)]
    · simp [pipeRun, DelayPipe.clear]
    · simp [pipeRun, DelayPipe.clear]
    · intro i hi
      simp only [pipeRun, DelayPipe.clear, getD_replicate_default]
      rw [if_neg (by omega)]
  | succ t ih =>
    obtain ⟨hwr, hrd, hlen, hp⟩ := ih
    have hstep : pipeRun N vs (t + 1) =
        ((pipeRun N vs t).step).push_back (vs t) := rfl
    have hwr' : ((pipeRun N vs t).step).wr = (N + t + 1) % (N + 1) := by
      simp only [DelayPipe.step, hwr]
      exact Nat.mod_add_mod (N + t) (N + 1) 1
    have hrd' : ((pipeRun N vs t).step).rd = (t + 1) % (N + 1) := by
      simp only [DelayPipe.step, hrd]
      exact Nat.mod_add_mod t (N + 1) 1
    refine ⟨?_, ?_, ?_, ?_⟩
    · simp only [hstep, DelayPipe.push_back, hwr']
      congr 1
    · simp only [hstep, DelayPipe.push_back, hrd']
    · simp only [hstep, DelayPipe.push_back, DelayPipe.step, List.length_set]
      exact hlen
    · intro i hi
      -- the slot written this cycle is `(N + t + 1) % (N + 1)`
      have hpnew : (pipeRun N vs (t + 1)).p =
          (pipeRun N vs t).p.set ((N + t + 1) % (N + 1)) (vs t) := by
        rw [hstep]
        simp only [DelayPipe.push_back, DelayPipe.step, hwr,
          Nat.mod_add_mod]
      rw [hpnew]
      by_cases hiN : i = N
      · rw [hiN]
        have hidx : (t + 1 + N) % (N + 1) = (N + t + 1) % (N + 1) := by
          congr 1
          omega
        rw [hidx, getD_set_eq _ _ _ _ (by rw [hlen]; exact Nat.mod_lt _ (by omega))]
        rw [if_pos (by omega)]
        congr 1
        omega
      · have hne : (N + t + 1) % (N + 1) ≠ (t + 1 + i) % (N + 1) := by
          intro hc
          have h1 : (t + 1 + N) % (N + 1) = (t + 1 + i) % (N + 1) := by
            rw [← hc]
            congr 1
            omega
          have h2 : N % (N + 1) = i % (N + 1) := add_mod_cancel_left h1
          rw [Nat.mod_eq_of_lt (by omega), Nat.mod_eq_of_lt (by omega)] at h2
          omega
        rw [getD_set_ne _ _ _ _ _ hne]
        have hidx : (t + 1 + i) % (N + 1) = (t + (i + 1)) % (N + 1) := by
          congr 1
          omega
        rw [hidx, hp (i + 1) (by omega)]
        by_cases hc : N + 1 ≤ t + (i + 1)
        · rw [if_pos hc, if_pos (by omega)]
          congr 1
          omega
        · rw [if_neg hc, if_neg (by omega)]

/-! ### Further helper lemmas about the update semantics -/

theorem length_insertEntry (e : Entry) (l : List Entry) :
    (insertEntry e l).length = l.length + 1 := by
  induction l with
  | nil => rfl
  | cons a t ih =>
    by_cases h : a.key ≤ e.key
    · simp [insertEntry, h, ih]
    · simp [insertEntry, h]

theorem insertEntry_append_of_max (e : Entry) (l : List Entry)
    (h : ∀ x ∈ l, x.key ≤ e.key) : insertEntry e l = l ++ [e] := by
  induction l with
  | nil => rfl
  | cons a t ih =>
    simp only [insertEntry, if_pos (h a (List.mem_cons_self _ _)),
      List.cons_append]
    rw [ih (fun x hx => h x (List.mem_cons_of_mem _ hx))]

theorem sorted_key_le_getLastD (l : List Entry)
    (hs : List.Sorted entryLe l) :
    ∀ d, ∀ x ∈ l, x.key ≤ (l.getLastD d).key := by
  induction l with
  | nil => intro d x hx; simp at hx
  | cons a t ih =>
    intro d x hx
    have hrel : ∀ y ∈ t, entryLe a y := (List.sorted_cons.mp hs).1
    have hts : List.Sorted entryLe t := (List.sorted_cons.mp hs).2
    rw [List.getLastD_cons]
    cases t with
    | nil =>
      rcases List.mem_cons.mp hx with rfl | hx
      · simp [List.getLastD]
      · simp at hx
    | cons b t' =>
      rcases List.mem_cons.mp hx with hxa | hx
      · rw [hxa]
        exact le_trans (hrel b (List.mem_cons_self _ _))
          (ih hts a b (List.mem_cons_self _ _))
      · exact ih hts a x hx

theorem set_getD_self {α : Type} (l : List α) (i : Nat) (d : α) :
    l.set i (l.getD i d) = l := by
  induction l generalizing i with
  | nil => rfl
  | cons a t ih =>
    cases i with
    | zero => simp [List.getD]
    | succ k =>
      have h := ih k
      simp only [List.getD, List.get?_eq_getElem?] at h ⊢
      simp [h]

theorem getD_map_key (l : List Entry) (i : Nat) (d : Entry) :
    (l.map Entry.key).getD i d.key = (l.getD i d).key := by
  induction l generalizing i with
  | nil => simp [List.getD]
  | cons a t ih =>
    cases i with
    | zero => simp [List.getD]
    | succ k => simpa [List.getD, List.get?] using ih k

/-- On a sorted context, the `Cmd::Add` path computes `insertEntry`
followed by the capacity truncation. -/
theorem add_eq_insertEntry (entriesN : Nat) (uc : UpdateCommand)
    (ctxt : List Entry) (hcmd : uc.cmd = Cmd.Add)
    (hs : List.Sorted entryLe ctxt) :
    (handle_uc_ctxt entriesN uc ctxt).1 =
      (if entriesN < (insertEntry ⟨uc.key, uc.volume⟩ ctxt).length then
        (insertEntry ⟨uc.key, uc.volume⟩ ctxt).dropLast
      else insertEntry ⟨uc.key, uc.volume⟩ ctxt) := by
  unfold handle_uc_ctxt
  rw [hcmd]
  simp only [insertionSort_concat_sorted _ _ hs]

/-- Every update command leaves the context within capacity. -/
theorem handle_uc_length_le (entriesN : Nat) (uc : UpdateCommand)
    (c : List Entry) (h : c.length ≤ entriesN) :
    ((handle_uc_ctxt entriesN uc c).1).length ≤ entriesN := by
  unfold handle_uc_ctxt
  cases uc.cmd with
  | Clr => cases c <;> simp
  | Add =>
    have hlen : (List.insertionSort entryLe
        (c ++ [⟨uc.key, uc.volume⟩])).length = c.length + 1 := by
      rw [(List.perm_insertionSort entryLe _).length_eq]
      simp
    simp only [hlen]
    by_cases hc : entriesN < c.length + 1
    · simp only [if_pos hc, List.length_dropLast, hlen]
      omega
    · simp only [if_neg hc, hlen]
      omega
  | Rep =>
    by_cases hi : c.findIdx (fun e => e.key == uc.key) < c.length
    · simp only [if_pos hi, List.length_set]
      exact h
    · simp only [if_neg hi]
      exact h
  | Del =>
    by_cases hi : c.findIdx (fun e => e.key == uc.key) < c.length
    · simp only [if_pos hi]
      exact le_trans (List.Sublist.length_le (List.eraseIdx_sublist _ _)) h
    · simp only [if_neg hi]
      exact h

/-- The sorted-context and per-key-stability invariant of a run of `Add`
commands from an arbitrary sorted starting context. -/
theorem applyAddsFrom_inv (entriesN : Nat) (es : List Entry) :
    ∀ c : List Entry, List.Sorted entryLe c →
      List.Sorted entryLe (applyAddsFrom entriesN c es) ∧
      (∀ k, List.Sublist ((applyAddsFrom entriesN c es).filter (fun x => x.key == k))
        (c.filter (fun x => x.key == k) ++ es.filter (fun x => x.key == k))) := by
  induction es with
  | nil =>
    intro c hc
    refine ⟨hc, fun k => ?_⟩
    simp [applyAddsFrom]
  | cons e es' ih =>
    intro c hc
    have hstep : (handle_uc_ctxt entriesN (addCmd e) c).1 =
        (if entriesN < (insertEntry e c).length then
          (insertEntry e c).dropLast
        else insertEntry e c) :=
      add_eq_insertEntry entriesN (addCmd e) c rfl hc
    have hsort : List.Sorted entryLe (handle_uc_ctxt entriesN (addCmd e) c).1 := by
      rw [hstep]
      by_cases hcap : entriesN < (insertEntry e c).length
      · rw [if_pos hcap]
        exact List.Pairwise.sublist (List.dropLast_sublist _)
          (sorted_insertEntry e c hc)
      · rw [if_neg hcap]
        exact sorted_insertEntry e c hc
    have hfil : ∀ k, List.Sublist
        (((handle_uc_ctxt entriesN (addCmd e) c).1).filter (fun x => x.key == k))
        (c.filter (fun x => x.key == k) ++ (if e.key == k then [e] else [])) := by
      intro k
      rw [hstep]
      by_cases hcap : entriesN < (insertEntry e c).length
      · rw [if_pos hcap, ← filter_insertEntry e c k hc]
        exact List.Sublist.filter _ (List.dropLast_sublist _)
      · rw [if_neg hcap, filter_insertEntry e c k hc]
    have hrun : applyAddsFrom entriesN c (e :: es') =
        applyAddsFrom entriesN ((handle_uc_ctxt entriesN (addCmd e) c).1) es' := rfl
    obtain ⟨ihs, ihf⟩ := ih ((handle_uc_ctxt entriesN (addCmd e) c).1) hsort
    refine ⟨by rw [hrun]; exact ihs, fun k => ?_⟩
    rw [hrun]
    have h1 := ihf k
    have h2 : List.Sublist
        (((handle_uc_ctxt entriesN (addCmd e) c).1).filter
          (fun x => x.key == k) ++ es'.filter (fun x => x.key == k))
        ((c.filter (fun x => x.key == k) ++ (if e.key == k then [e] else [])) ++
          es'.filter (fun x => x.key == k)) :=
      List.Sublist.append (hfil k) (List.Sublist.refl _)
    have h3 : (e :: es').filter (fun x => x.key == k) =
        (if e.key == k then [e] else []) ++ es'.filter (fun x => x.key == k) := by
      by_cases hek : e.key = k <;> simp [List.filter_cons, hek]
    rw [h3, ← List.append_assoc]
    exact h1.trans h2

/-- The `Del`/`Rep` handler pushes the head notification exactly when the
first matching index is `0` and a match exists, and pushes nothing when no
match exists. -/
theorem delrep_snd (entriesN : Nat) (uc : UpdateCommand) (ctxt : List Entry)
    (hcmd : uc.cmd = Cmd.Del ∨ uc.cmd = Cmd.Rep) :
    (handle_uc_ctxt entriesN uc ctxt).2 =
      (if ctxt.findIdx (fun e => e.key == uc.key) < ctxt.length then
        some (if ctxt.findIdx (fun e => e.key == uc.key) = 0 then
          ⟨true, uc.id,
            (ctxt.getD (ctxt.findIdx (fun e => e.key == uc.key)) default).key,
            (ctxt.getD (ctxt.findIdx (fun e => e.key == uc.key)) default).volume⟩
        else NotifyResponse.invalid)
      else none) := by
  rcases hcmd with h | h <;>
    (unfold handle_uc_ctxt
     rw [h]
     by_cases hi : ctxt.findIdx (fun e => e.key == uc.key) < ctxt.length <;>
       simp [hi])

theorem findIdx_cons_zero_iff (k : Nat) (e : Entry) (t : List Entry) :
    (e :: t).findIdx (fun x => x.key == k) = 0 ↔ e.key = k := by
  by_cases h : e.key = k
  · simp [List.findIdx_cons, h]
  · have hb : (e.key == k) = false := by simp [h]
    simp [List.findIdx_cons, hb, h]

/-! ### Claim theorems -/

/-- Claim C2: for a `DelayPipe` of depth `N` driven as the reference model
drives it (exactly one `push_back` between successive `step()` calls,
starting from the cleared constructor state), the value pushed at logical
cycle `t` is what `head()` returns during cycle `t + N`, and at every
other cycle `head()` returns a different push's value (the push of cycle
`c - N`) or the cleared default (cycles before `N`). -/
theorem delayPipe_latency_alignment {T : Type} [Inhabited T] (N : Nat)
    (vs : Nat → T) (t c : Nat) :
    pipeObs N vs (t + N) = vs t ∧
    pipeObs N vs c = (if N ≤ c then vs (c - N) else default) := by
  have hmain : ∀ s, pipeObs N vs s =
      (if N ≤ s then vs (s - N) else default) := by
    intro s
    have h0 := (pipeRun_inv N vs (s + 1)).2.2.2 0 (Nat.zero_le N)
    have hrd := (pipeRun_inv N vs (s + 1)).2.1
    simp only [Nat.add_zero] at h0
    unfold pipeObs DelayPipe.head
    rw [hrd, h0]
    by_cases hc : N ≤ s
    · rw [if_pos (by omega), if_pos hc]
      congr 1
      omega
    · rw [if_neg (by omega), if_neg hc]
  refine ⟨?_, hmain c⟩
  rw [hmain (t + N), if_pos (Nat.le_add_left N t)]
  congr 1
  omega

/-- Claim C1 (amended): for every valid update command, a valid
NotifyResponse is pushed into the notify pipeline if and only if the
command is a `Clr` of a non-empty context, an `Add` into an empty
context, or a `Del`/`Rep` whose key matches the first (head) entry of a
non-empty context; when pushed, its key/volume equal the old head's
key/volume for `Clr`/`Del`/`Rep` and the added entry's key/volume for
`Add` into an empty context.  In particular — contrary to the claim as
stated — an `Add` into a non-empty context never predicts a Notify, even
when its key is smaller than the current head's key (see the
counterexample below). -/
theorem notify_prediction_characterization (entriesN : Nat)
    (uc : UpdateCommand) (ctxt : List Entry) (hv : uc.vld = true) :
    ((∃ nr, (handle_uc_ctxt entriesN uc ctxt).2 = some nr ∧ nr.vld = true) ↔
      ((uc.cmd = Cmd.Clr ∧ ctxt ≠ []) ∨
       (uc.cmd = Cmd.Add ∧ ctxt = []) ∨
       ((uc.cmd = Cmd.Del ∨ uc.cmd = Cmd.Rep) ∧ ctxt ≠ [] ∧
         (ctxt.headD default).key = uc.key))) ∧
    (∀ nr, (handle_uc_ctxt entriesN uc ctxt).2 = some nr → nr.vld = true →
      nr.id = uc.id ∧
      (uc.cmd = Cmd.Add → nr.key = uc.key ∧ nr.volume = uc.volume) ∧
      (uc.cmd ≠ Cmd.Add →
        nr.key = (ctxt.headD default).key ∧
        nr.volume = (ctxt.headD default).volume)) := by
  cases hcmd : uc.cmd with
  | Clr =>
    unfold handle_uc_ctxt
    rw [hcmd]
    cases ctxt with
    | nil => simp [NotifyResponse.invalid]
    | cons e t => simp [NotifyResponse.invalid, List.headD]
  | Add =>
    unfold handle_uc_ctxt
    rw [hcmd]
    cases ctxt with
    | nil => simp [NotifyResponse.invalid]
    | cons e t => simp [NotifyResponse.invalid]
  | Del =>
    have hsnd := delrep_snd entriesN uc ctxt (by rw [hcmd]; exact Or.inl rfl)
    cases ctxt with
    | nil =>
      rw [if_neg (by simp)] at hsnd
      refine ⟨⟨?_, ?_⟩, ?_⟩
      · rintro ⟨nr, hnr, _⟩
        rw [hsnd] at hnr
        exact Option.noConfusion hnr
      · rintro (⟨hc, _⟩ | ⟨hc, _⟩ | ⟨_, hne, _⟩)
        · exact Cmd.noConfusion hc
        · exact Cmd.noConfusion hc
        · exact absurd rfl hne
      · intro nr hnr
        rw [hsnd] at hnr
        exact absurd hnr (by simp)
    | cons e t =>
      by_cases hek : e.key = uc.key
      · have h0 : (e :: t).findIdx (fun x => x.key == uc.key) = 0 :=
          (findIdx_cons_zero_iff uc.key e t).mpr hek
        rw [h0, if_pos (by simp), if_pos rfl, List.getD_cons_zero] at hsnd
        refine ⟨⟨?_, ?_⟩, ?_⟩
        · intro _
          exact Or.inr (Or.inr ⟨Or.inl rfl, by simp, by simp [List.headD, hek]⟩)
        · intro _
          exact ⟨⟨true, uc.id, e.key, e.volume⟩, hsnd, rfl⟩
        · intro nr hnr hvld
          rw [hsnd] at hnr
          have hh := Option.some.inj hnr
          rw [← hh]
          exact ⟨rfl, fun hc => Cmd.noConfusion hc,
            fun _ => ⟨by simp [List.headD], by simp [List.headD]⟩⟩
      · have h0 : (e :: t).findIdx (fun x => x.key == uc.key) ≠ 0 :=
          fun hc => hek ((findIdx_cons_zero_iff uc.key e t).mp hc)
        by_cases hfound :
            (e :: t).findIdx (fun x => x.key == uc.key) < (e :: t).length
        · rw [if_pos hfound, if_neg h0] at hsnd
          refine ⟨⟨?_, ?_⟩, ?_⟩
          · rintro ⟨nr, hnr, hvld⟩
            rw [hsnd] at hnr
            rw [← Option.some.inj hnr] at hvld
            exact absurd hvld (by decide)
          · rintro (⟨hc, _⟩ | ⟨hc, _⟩ | ⟨_, _, hkey⟩)
            · exact Cmd.noConfusion hc
            · exact Cmd.noConfusion hc
            · exact absurd (by simpa [List.headD] using hkey) hek
          · intro nr hnr hvld
            rw [hsnd] at hnr
            rw [← Option.some.inj hnr] at hvld
            exact absurd hvld (by decide)
        · rw [if_neg hfound] at hsnd
          refine ⟨⟨?_, ?_⟩, ?_⟩
          · rintro ⟨nr, hnr, _⟩
            rw [hsnd] at hnr
            exact Option.noConfusion hnr
          · rintro (⟨hc, _⟩ | ⟨hc, _⟩ | ⟨_, _, hkey⟩)
            · exact Cmd.noConfusion hc
            · exact Cmd.noConfusion hc
            · exact absurd (by simpa [List.headD] using hkey) hek
          · intro nr hnr
            rw [hsnd] at hnr
            exact absurd hnr (by simp)
  | Rep =>
    have hsnd := delrep_snd entriesN uc ctxt (by rw [hcmd]; exact Or.inr rfl)
    cases ctxt with
    | nil =>
      rw [if_neg (by simp)] at hsnd
      refine ⟨⟨?_, ?_⟩, ?_⟩
      · rintro ⟨nr, hnr, _⟩
        rw [hsnd] at hnr
        exact Option.noConfusion hnr
      · rintro (⟨hc, _⟩ | ⟨hc, _⟩ | ⟨_, hne, _⟩)
        · exact Cmd.noConfusion hc
        · exact Cmd.noConfusion hc
        · exact absurd rfl hne
      · intro nr hnr
        rw [hsnd] at hnr
        exact absurd hnr (by simp)
    | cons e t =>
      by_cases hek : e.key = uc.key
      · have h0 : (e :: t).findIdx (fun x => x.key == uc.key) = 0 :=
          (findIdx_cons_zero_iff uc.key e t).mpr hek
        rw [h0, if_pos (by simp), if_pos rfl, List.getD_cons_zero] at hsnd
        refine ⟨⟨?_, ?_⟩, ?_⟩
        · intro _
          exact Or.inr (Or.inr ⟨Or.inr rfl, by simp, by simp [List.headD, hek]⟩)
        · intro _
          exact ⟨⟨true, uc.id, e.key, e.volume⟩, hsnd, rfl⟩
        · intro nr hnr hvld
          rw [hsnd] at hnr
          have hh := Option.some.inj hnr
          rw [← hh]
          exact ⟨rfl, fun hc => Cmd.noConfusion hc,
            fun _ => ⟨by simp [List.headD], by simp [List.headD]⟩⟩
      · have h0 : (e :: t).findIdx (fun x => x.key == uc.key) ≠ 0 :=
          fun hc => hek ((findIdx_cons_zero_iff uc.key e t).mp hc)
        by_cases hfound :
            (e :: t).findIdx (fun x => x.key == uc.key) < (e :: t).length
        · rw [if_pos hfound, if_neg h0] at hsnd
          refine ⟨⟨?_, ?_⟩, ?_⟩
          · rintro ⟨nr, hnr, hvld⟩
            rw [hsnd] at hnr
            rw [← Option.some.inj hnr] at hvld
            exact absurd hvld (by decide)
          · rintro (⟨hc, _⟩ | ⟨hc, _⟩ | ⟨_, _, hkey⟩)
            · exact Cmd.noConfusion hc
            · exact Cmd.noConfusion hc
            · exact absurd (by simpa [List.headD] using hkey) hek
          · intro nr hnr hvld
            rw [hsnd] at hnr
            rw [← Option.some.inj hnr] at hvld
            exact absurd hvld (by decide)
        · rw [if_neg hfound] at hsnd
          refine ⟨⟨?_, ?_⟩, ?_⟩
          · rintro ⟨nr, hnr, _⟩
            rw [hsnd] at hnr
            exact Option.noConfusion hnr
          · rintro (⟨hc, _⟩ | ⟨hc, _⟩ | ⟨_, _, hkey⟩)
            · exact Cmd.noConfusion hc
            · exact Cmd.noConfusion hc
            · exact absurd (by simpa [List.headD] using hkey) hek
          · intro nr hnr
            rw [hsnd] at hnr
            exact absurd hnr (by simp)

/-- Counterexample to claim C1 as stated (spec scenario 2): an `Add` of
key 3, volume 20 into the non-empty context `[{5, 10}]` changes which
entry occupies rank 0 (the new head is `{3, 20}`), yet the model pushes
the invalid (no-notify) prediction rather than a Notify carrying the new
entry. -/
theorem notify_add_nonempty_counterexample :
    (handle_uc_ctxt 4 (addCmd ⟨3, 20⟩) [⟨5, 10⟩]).1 = [⟨3, 20⟩, ⟨5, 10⟩] ∧
    (handle_uc_ctxt 4 (addCmd ⟨3, 20⟩) [⟨5, 10⟩]).2 =
      some NotifyResponse.invalid ∧
    NotifyResponse.invalid.vld = false ∧
    ([⟨3, 20⟩, ⟨5, 10⟩] : List Entry).headD default ≠
      ([⟨5, 10⟩] : List Entry).headD default := by
  refine ⟨by decide, by decide, by decide, by decide⟩

/-- Witness for C1: an `Add` into an empty context pushes a valid Notify
carrying the added entry, and a `Del` whose key misses pushes no valid
Notify. -/
theorem notify_prediction_witness :
    (∃ nr, (handle_uc_ctxt 4 (addCmd ⟨5, 10⟩) []).2 = some nr ∧
      nr.vld = true) ∧
    ¬ (∃ nr, (handle_uc_ctxt 4 ⟨true, 0, Cmd.Del, 7, 0⟩ [⟨3, 20⟩]).2 =
      some nr ∧ nr.vld = true) := by
  constructor
  · exact (notify_prediction_characterization 4 (addCmd ⟨5, 10⟩) [] rfl).1.mpr
      (Or.inr (Or.inl ⟨rfl, rfl⟩))
  · intro hc
    have h := (notify_prediction_characterization 4
      ⟨true, 0, Cmd.Del, 7, 0⟩ [⟨3, 20⟩] rfl).1.mp hc
    rcases h with ⟨hc', _⟩ | ⟨hc', _⟩ | ⟨_, _, hkey⟩
    · exact Cmd.noConfusion hc'
    · exact Cmd.noConfusion hc'
    · exact absurd hkey (by decide)

/-- Claim C6: for a valid query at level `L` on a context of size `S`,
the response has `error = (L ≥ S)`; on error the key, volume and listsize
fields are zeroed; otherwise key/volume are those of the entry at sorted
rank `L` and `listsize = S`. -/
theorem query_correctness (qc : QueryCommand) (ctxt : List Entry)
    (hv : qc.vld = true) :
    ((handle_qc_ctxt qc ctxt).error = true ↔ ctxt.length ≤ qc.level) ∧
    (ctxt.length ≤ qc.level →
      (handle_qc_ctxt qc ctxt).key = 0 ∧
      (handle_qc_ctxt qc ctxt).volume = 0 ∧
      (handle_qc_ctxt qc ctxt).listsize = 0) ∧
    (qc.level < ctxt.length →
      (handle_qc_ctxt qc ctxt).key = (ctxt.getD qc.level default).key ∧
      (handle_qc_ctxt qc ctxt).volume = (ctxt.getD qc.level default).volume ∧
      (handle_qc_ctxt qc ctxt).listsize = ctxt.length) := by
  unfold handle_qc_ctxt
  by_cases h : ctxt.length ≤ qc.level
  · rw [if_pos h]
    exact ⟨by simp [h], fun _ => ⟨rfl, rfl, rfl⟩, fun hc => absurd hc (by omega)⟩
  · rw [if_neg h]
    exact ⟨by simp [h], fun hc => absurd hc h, fun _ => ⟨rfl, rfl, rfl⟩⟩

/-- Witness for C6: a level-0 query on `[{5, 99}]` succeeds with key 5,
volume 99, listsize 1 (spec scenario 5, first half). -/
theorem query_correctness_witness :
    (QueryCommand.mk true 0 0).vld = true ∧
    ((handle_qc_ctxt ⟨true, 0, 0⟩ [⟨5, 99⟩]).error = true ↔
        (([⟨5, 99⟩] : List Entry)).length ≤ (QueryCommand.mk true 0 0).level) ∧
    (0 < (([⟨5, 99⟩] : List Entry)).length →
      (handle_qc_ctxt ⟨true, 0, 0⟩ [⟨5, 99⟩]).key =
        (([⟨5, 99⟩] : List Entry).getD 0 default).key) := by
  refine ⟨rfl, (query_correctness ⟨true, 0, 0⟩ [⟨5, 99⟩] rfl).1, ?_⟩
  intro h
  exact ((query_correctness ⟨true, 0, 0⟩ [⟨5, 99⟩] rfl).2.2 h).1

/-- Claim C8: a valid `Clr` on a non-empty context predicts a Notify
carrying the pre-clear head's key and volume and empties the context; on
an empty context it pushes the invalid (no-notify) prediction and the
context stays empty. -/
theorem clear_semantics (entriesN : Nat) (uc : UpdateCommand)
    (ctxt : List Entry) (hv : uc.vld = true) (hc : uc.cmd = Cmd.Clr) :
    (ctxt = [] →
      handle_uc_ctxt entriesN uc ctxt = ([], some NotifyResponse.invalid)) ∧
    (ctxt ≠ [] →
      handle_uc_ctxt entriesN uc ctxt =
        ([], some ⟨true, uc.id, (ctxt.headD default).key,
          (ctxt.headD default).volume⟩)) := by
  constructor
  · intro he
    subst he
    unfold handle_uc_ctxt
    rw [hc]
  · intro hne
    match ctxt, hne with
    | e :: t, _ =>
      unfold handle_uc_ctxt
      rw [hc]
      simp [List.headD]

/-- Witness for C8: clearing `[{3, 20}, {5, 10}]` notifies with the old
head `{3, 20}` and empties the context; clearing an empty context pushes
the invalid prediction. -/
theorem clear_semantics_witness :
    handle_uc_ctxt 4 ⟨true, 0, Cmd.Clr, 0, 0⟩ [⟨3, 20⟩, ⟨5, 10⟩] =
      ([], some ⟨true, 0, 3, 20⟩) ∧
    handle_uc_ctxt 4 ⟨true, 0, Cmd.Clr, 0, 0⟩ [] =
      ([], some NotifyResponse.invalid) := by
  constructor
  · have h := (clear_semantics 4 ⟨true, 0, Cmd.Clr, 0, 0⟩ [⟨3, 20⟩, ⟨5, 10⟩]
      rfl rfl).2 (by decide)
    simpa using h
  · exact (clear_semantics 4 ⟨true, 0, Cmd.Clr, 0, 0⟩ [] rfl rfl).1 rfl

/-- Claim C9: a valid `UpdateCommand` or `QueryCommand` whose context id
is outside `[0, CONTEXT_N)` is a fatal precondition violation
(`ASSERT_LT`, tb.cc:225 and tb.cc:290): the model-level handler aborts,
mutating no context and pushing no prediction (result `none`). -/
theorem out_of_range_id_fatal (contextN entriesN : Nat)
    (uc : UpdateCommand) (qc : QueryCommand) (m : VModel)
    (hu : uc.vld = true) (hui : contextN ≤ uc.id)
    (hq : qc.vld = true) (hqi : contextN ≤ qc.id) :
    VModel.handle_uc contextN entriesN uc m = none ∧
    VModel.handle_qc contextN qc m = none := by
  unfold VModel.handle_uc VModel.handle_qc
  rw [hu, hq]
  simp [hui, hqi]

/-- Witness for C9: with `CONTEXT_N = 2`, commands addressing context 2
abort the model. -/
theorem out_of_range_id_fatal_witness :
    VModel.handle_uc 2 4 ⟨true, 2, Cmd.Add, 1, 1⟩ (VModel.init 2) = none ∧
    VModel.handle_qc 2 ⟨true, 2, 0⟩ (VModel.init 2) = none :=
  out_of_range_id_fatal 2 4 ⟨true, 2, Cmd.Add, 1, 1⟩ ⟨true, 2, 0⟩
    (VModel.init 2) rfl (by decide) rfl (by decide)

theorem delrep_miss (entriesN : Nat) (uc : UpdateCommand)
    (ctxt : List Entry) (hcmd : uc.cmd = Cmd.Del ∨ uc.cmd = Cmd.Rep)
    (hmiss : ¬ ctxt.findIdx (fun e => e.key == uc.key) < ctxt.length) :
    handle_uc_ctxt entriesN uc ctxt = (ctxt, none) := by
  rcases hcmd with h | h <;>
    (unfold handle_uc_ctxt
     rw [h]
     simp [hmiss])

theorem rep_fst (entriesN : Nat) (uc : UpdateCommand) (ctxt : List Entry)
    (hcmd : uc.cmd = Cmd.Rep)
    (hfound : ctxt.findIdx (fun e => e.key == uc.key) < ctxt.length) :
    (handle_uc_ctxt entriesN uc ctxt).1 =
      ctxt.set (ctxt.findIdx (fun e => e.key == uc.key))
        ⟨(ctxt.getD (ctxt.findIdx (fun e => e.key == uc.key)) default).key,
          uc.volume⟩ := by
  unfold handle_uc_ctxt
  rw [hcmd]
  simp [hfound]

theorem del_fst (entriesN : Nat) (uc : UpdateCommand) (ctxt : List Entry)
    (hcmd : uc.cmd = Cmd.Del)
    (hfound : ctxt.findIdx (fun e => e.key == uc.key) < ctxt.length) :
    (handle_uc_ctxt entriesN uc ctxt).1 =
      ctxt.eraseIdx (ctxt.findIdx (fun e => e.key == uc.key)) := by
  unfold handle_uc_ctxt
  rw [hcmd]
  simp [hfound]

theorem map_key_set (l : List Entry) (i : Nat) (v : Nat) :
    (l.set i ⟨(l.getD i default).key, v⟩).map Entry.key = l.map Entry.key := by
  induction l generalizing i with
  | nil => rfl
  | cons a t ih =>
    cases i with
    | zero => simp [List.getD]
    | succ k =>
      have h := ih k
      simp only [List.getD, List.get?_eq_getElem?] at h ⊢
      simp [h]

/-- Claim C7: for a valid `Del`/`Rep` command: a key miss is a complete
no-op (context unchanged, nothing pushed); a match on the head entry
predicts a valid Notify carrying the pre-mutation head key/volume; a
match elsewhere pushes only the invalid (no-notify) prediction.  `Rep`
changes only the matched entry's volume (all keys, their order, and the
length are unchanged); `Del` removes exactly the matched entry. -/
theorem delete_replace_semantics (entriesN : Nat) (uc : UpdateCommand)
    (ctxt : List Entry) (hv : uc.vld = true)
    (hcmd : uc.cmd = Cmd.Del ∨ uc.cmd = Cmd.Rep) :
    ((∀ x ∈ ctxt, x.key ≠ uc.key) →
      handle_uc_ctxt entriesN uc ctxt = (ctxt, none)) ∧
    (∀ e t, ctxt = e :: t → e.key = uc.key →
      (handle_uc_ctxt entriesN uc ctxt).2 =
        some ⟨true, uc.id, e.key, e.volume⟩) ∧
    (ctxt.findIdx (fun x => x.key == uc.key) ≠ 0 →
      ∀ nr, (handle_uc_ctxt entriesN uc ctxt).2 = some nr →
        nr.vld = false) ∧
    (uc.cmd = Cmd.Rep →
      ((handle_uc_ctxt entriesN uc ctxt).1).map Entry.key =
        ctxt.map Entry.key ∧
      ((handle_uc_ctxt entriesN uc ctxt).1).length = ctxt.length ∧
      (∀ j, j ≠ ctxt.findIdx (fun x => x.key == uc.key) →
        ((handle_uc_ctxt entriesN uc ctxt).1).getD j default =
          ctxt.getD j default) ∧
      (ctxt.findIdx (fun x => x.key == uc.key) < ctxt.length →
        ((handle_uc_ctxt entriesN uc ctxt).1).getD
            (ctxt.findIdx (fun x => x.key == uc.key)) default =
          ⟨(ctxt.getD (ctxt.findIdx (fun x => x.key == uc.key)) default).key,
            uc.volume⟩)) ∧
    (uc.cmd = Cmd.Del →
      ctxt.findIdx (fun x => x.key == uc.key) < ctxt.length →
      (handle_uc_ctxt entriesN uc ctxt).1 =
        ctxt.take (ctxt.findIdx (fun x => x.key == uc.key)) ++
          ctxt.drop (ctxt.findIdx (fun x => x.key == uc.key) + 1)) := by
  refine ⟨?_, ?_, ?_, ?_, ?_⟩
  · intro hnone
    have hlen : ctxt.findIdx (fun x => x.key == uc.key) = ctxt.length := by
      rw [findIdx_eq_length_iff]
      intro x hx
      simp [hnone x hx]
    exact delrep_miss entriesN uc ctxt hcmd (by omega)
  · intro e t hct hek
    have hsnd := delrep_snd entriesN uc ctxt hcmd
    subst hct
    have h0 : (e :: t).findIdx (fun x => x.key == uc.key) = 0 :=
      (findIdx_cons_zero_iff uc.key e t).mpr hek
    rw [h0, if_pos (by simp), if_pos rfl, List.getD_cons_zero] at hsnd
    exact hsnd
  · intro h0 nr hnr
    have hsnd := delrep_snd entriesN uc ctxt hcmd
    by_cases hfound :
        ctxt.findIdx (fun x => x.key == uc.key) < ctxt.length
    · rw [if_pos hfound, if_neg h0] at hsnd
      rw [hsnd] at hnr
      rw [← Option.some.inj hnr]
      rfl
    · rw [if_neg hfound] at hsnd
      rw [hsnd] at hnr
      exact absurd hnr (by simp)
  · intro hrep
    by_cases hfound :
        ctxt.findIdx (fun x => x.key == uc.key) < ctxt.length
    · rw [rep_fst entriesN uc ctxt hrep hfound]
      refine ⟨map_key_set _ _ _, List.length_set _ _ _, ?_, ?_⟩
      · intro j hj
        exact getD_set_ne _ _ _ _ _ (fun hc => hj hc.symm)
      · intro _
        exact getD_set_eq _ _ _ _ hfound
    · rw [(delrep_miss entriesN uc ctxt hcmd hfound)]
      exact ⟨rfl, rfl, fun j _ => rfl, fun hc => absurd hc hfound⟩
  · intro hdel hfound
    rw [del_fst entriesN uc ctxt hdel hfound]
    exact eraseIdx_eq_take_drop _ _

/-- Witness for C7: deleting key 3 from `[{3, 20}, {5, 99}]` (a head
match) predicts the Notify `(ctx 0, key 3, volume 20)`, and replacing
key 5 in the same context (a non-head match) pushes no valid notify
(spec scenarios 3 and 4). -/
theorem delete_replace_semantics_witness :
    (handle_uc_ctxt 4 ⟨true, 0, Cmd.Del, 3, 0⟩ [⟨3, 20⟩, ⟨5, 99⟩]).2 =
      some ⟨true, 0, 3, 20⟩ ∧
    (∀ nr, (handle_uc_ctxt 4 ⟨true, 0, Cmd.Rep, 5, 1⟩
      [⟨3, 20⟩, ⟨5, 99⟩]).2 = some nr → nr.vld = false) := by
  constructor
  · exact (delete_replace_semantics 4 ⟨true, 0, Cmd.Del, 3, 0⟩
      [⟨3, 20⟩, ⟨5, 99⟩] rfl (Or.inl rfl)).2.1 ⟨3, 20⟩ [⟨5, 99⟩] rfl rfl
  · exact (delete_replace_semantics 4 ⟨true, 0, Cmd.Rep, 5, 1⟩
      [⟨3, 20⟩, ⟨5, 99⟩] rfl (Or.inr rfl)).2.2.1 (by decide)

/-- Claim C4: a context's size never exceeds `ENTRIES_N` over any
sequence of update commands from reset, and when an `Add` overflows a
full context exactly one entry is silently dropped — the one in the last
(maximum-key) position of the post-sort list. -/
theorem capacity_invariant (entriesN : Nat) :
    (∀ ucs : List UpdateCommand,
      (applyCmds entriesN ucs).length ≤ entriesN) ∧
    (∀ (ctxt : List Entry) (uc : UpdateCommand), uc.cmd = Cmd.Add →
      List.Sorted entryLe ctxt → ctxt.length = entriesN →
      (handle_uc_ctxt entriesN uc ctxt).1 =
        (insertEntry ⟨uc.key, uc.volume⟩ ctxt).dropLast ∧
      (insertEntry ⟨uc.key, uc.volume⟩ ctxt).length = entriesN + 1 ∧
      (∀ x ∈ insertEntry ⟨uc.key, uc.volume⟩ ctxt,
        x.key ≤
          ((insertEntry ⟨uc.key, uc.volume⟩ ctxt).getLastD default).key)) := by
  constructor
  · have haux : ∀ (ucs : List UpdateCommand) (c : List Entry),
        c.length ≤ entriesN →
        (ucs.foldl (fun c uc => (handle_uc_ctxt entriesN uc c).1) c).length ≤
          entriesN := by
      intro ucs
      induction ucs with
      | nil => intro c h; simpa using h
      | cons u us ih =>
        intro c h
        exact ih _ (handle_uc_length_le entriesN u c h)
    intro ucs
    exact haux ucs [] (by simp)
  · intro ctxt uc hcmd hs hlen
    have hins : (insertEntry ⟨uc.key, uc.volume⟩ ctxt).length = entriesN + 1 := by
      rw [length_insertEntry, hlen]
    refine ⟨?_, hins, ?_⟩
    · rw [add_eq_insertEntry entriesN uc ctxt hcmd hs, if_pos (by omega)]
    · exact fun x hx => sorted_key_le_getLastD _
        (sorted_insertEntry _ _ hs) default x hx

/-- Witness for C4: with `ENTRIES_N = 2`, a third `Add` into the full
sorted context `[{1, 1}, {2, 2}]` keeps the size at 2 and the
post-insert list has its maximum key in last position. -/
theorem capacity_invariant_witness :
    (applyCmds 2 [addCmd ⟨1, 1⟩, addCmd ⟨2, 2⟩, addCmd ⟨3, 3⟩]).length ≤ 2 ∧
    (handle_uc_ctxt 2 (addCmd ⟨3, 3⟩) [⟨1, 1⟩, ⟨2, 2⟩]).1 =
      (insertEntry ⟨3, 3⟩ [⟨1, 1⟩, ⟨2, 2⟩]).dropLast ∧
    (insertEntry ⟨3, 3⟩ ([⟨1, 1⟩, ⟨2, 2⟩] : List Entry)).length = 2 + 1 := by
  refine ⟨(capacity_invariant 2).1 _, ?_, ?_⟩
  · exact ((capacity_invariant 2).2 [⟨1, 1⟩, ⟨2, 2⟩] (addCmd ⟨3, 3⟩) rfl
      (by decide) rfl).1
  · exact ((capacity_invariant 2).2 [⟨1, 1⟩, ⟨2, 2⟩] (addCmd ⟨3, 3⟩) rfl
      (by decide) rfl).2.1

/-- Claim C5: after every `Add` in any sequence of `Add` operations from
an empty context, the context is sorted ascending by key, and the
entries holding any fixed key form a subsequence of that key's arrival
order (equal-key entries retain their relative insertion order — the
sort is stable; capacity eviction can only drop entries, never reorder
them). -/
theorem sort_invariant_stability (entriesN : Nat) (es : List Entry) :
    List.Sorted entryLe (applyAdds entriesN es) ∧
    (∀ k, List.Sublist
      ((applyAdds entriesN es).filter (fun x => x.key == k))
      (es.filter (fun x => x.key == k))) := by
  obtain ⟨hs, hf⟩ := applyAddsFrom_inv entriesN es [] (by simp)
  refine ⟨hs, fun k => ?_⟩
  have h := hf k
  simpa [applyAdds] using h

/-- Claim C10: an `Add` whose key is at least every key of a full
context (size exactly `ENTRIES_N`) leaves the context unchanged: by
stability the new entry lands in the last position and is itself the
entry evicted by the capacity check. -/
theorem add_max_key_noop (entriesN : Nat) (uc : UpdateCommand)
    (ctxt : List Entry) (hv : uc.vld = true) (hcmd : uc.cmd = Cmd.Add)
    (hs : List.Sorted entryLe ctxt) (hlen : ctxt.length = entriesN)
    (hmax : ∀ x ∈ ctxt, x.key ≤ uc.key) :
    (handle_uc_ctxt entriesN uc ctxt).1 = ctxt := by
  rw [add_eq_insertEntry entriesN uc ctxt hcmd hs,
    insertEntry_append_of_max _ _ hmax, if_pos (by simp [hlen])]
  exact List.dropLast_concat ..

/-- Witness for C10: with `ENTRIES_N = 2`, adding `{2, 9}` (key equal to
the current maximum) to the full context `[{1, 1}, {2, 2}]` leaves it
unchanged. -/
theorem add_max_key_noop_witness :
    (handle_uc_ctxt 2 (addCmd ⟨2, 9⟩) [⟨1, 1⟩, ⟨2, 2⟩]).1 =
      [⟨1, 1⟩, ⟨2, 2⟩] :=
  add_max_key_noop 2 (addCmd ⟨2, 9⟩) [⟨1, 1⟩, ⟨2, 2⟩] rfl rfl
    (by decide) rfl (by decide)

/-- Claim C3 (amended): `reset()` empties every context and is
idempotent, and on the freshly constructed model it is the identity; but
it does not modify either delay pipeline — the pipelines are cleared
only by their constructors (`DelayPipe::clear` is never called from
`reset`), contrary to the claim as stated. -/
theorem reset_semantics (m : VModel) (contextN : Nat) :
    (∀ c ∈ (VModel.reset m).tbl, c = []) ∧
    (VModel.reset m).notifyPipe = m.notifyPipe ∧
    (VModel.reset m).queriesPipe = m.queriesPipe ∧
    VModel.reset (VModel.reset m) = VModel.reset m ∧
    VModel.reset (VModel.init contextN) = VModel.init contextN := by
  refine ⟨?_, rfl, rfl, ?_, ?_⟩
  · intro c hc
    simp only [VModel.reset, List.mem_map] at hc
    obtain ⟨x, _, hx⟩ := hc
    exact hx.symm
  · simp [VModel.reset, List.map_map]
  · simp [VModel.reset, VModel.init, List.map_replicate]

/-- Witness for C3 (amended): resetting a model holding one entry in
context 0 empties that context, and applying `reset` to a freshly
constructed two-context model leaves it unchanged. -/
theorem reset_semantics_witness :
    (∀ c ∈ (VModel.reset { VModel.init 1 with
      tbl := [[⟨1, 2⟩]] } : VModel).tbl, c = []) ∧
    VModel.reset (VModel.init 2) = VModel.init 2 :=
  ⟨fun c hc => (reset_semantics { VModel.init 1 with tbl := [[⟨1, 2⟩]] } 1).1
    c hc, (reset_semantics (VModel.init 2) 2).2.2.2.2⟩

/-- Counterexample to claim C3 as stated: `reset()` does not restore the
notify pipeline to its cleared state — pushing one valid notification
into a fresh model's pipeline and then resetting leaves the pipeline
different from the cleared pipeline (the stale slot survives reset). -/
theorem reset_pipes_counterexample :
    (VModel.reset { VModel.init 1 with
        notifyPipe :=
          DelayPipe.push_back (VModel.init 1).notifyPipe
            ⟨true, 0, 5, 7⟩ }).notifyPipe ≠
      (DelayPipe.clear : DelayPipe NotifyResponse UPDATE_PIPE_DELAY) := by
  decide

end Verif
